import Mathlib

/-!
Verification of the WeCom bot-protocol SDK (`pkg/wecom`).

The development shallowly embeds the Go sources:
* `crypt.go` — key decoding, PKCS#7 padding, the encrypt/decrypt framing,
  signature calculation and URL verification;
* `stream.go` (shipped concatenated onto `crypt_test.go`) — the stream
  session state: `publish`, `getLatestChunk`, `createOrGet`;
* `bot.go` (shipped concatenated onto `crypt.go`) — the `refresh` dispatch;
* `message.go` — reply builders, in particular `BuildStreamReplyWithMsgItems`.

External library primitives that the Go code calls are modelled as follows:
* Go `encoding/base64` `StdEncoding` is implemented concretely
  (`b64encode` / `b64decode`, with the decoder ignoring `\r`/`\n` and
  discarding non-zero trailing bits exactly like the non-strict Go decoder);
* the AES-256 block cipher from `crypto/aes` / `crypto/cipher` is a
  parameter pair `E`/`D` of 16-byte block maps (CBC chaining itself is
  spelled out, as `cipher.NewCBCEncrypter` does);
* the SHA1-and-hex step of `CalcSignature` is a parameter `h`;
* `net/url.QueryUnescape` is implemented concretely (`queryUnescape`).

Bytes are `Nat` with explicit `< 256` bounds where they matter; byte strings
are `List Nat`; Go strings are Lean `String` (`List Char` underneath).
-/

deriving instance DecidableEq for Except

namespace Wecom

/-- Alphabet of Go `base64.StdEncoding`. -/
def b64Alphabet : List Char :=
  "ABCDEFGHIJKLMNOPQRSTUVWXYZabcdefghijklmnopqrstuvwxyz0123456789+/".toList

/-- Character for a 6-bit group. -/
def b64EncChar (n : Nat) : Char := b64Alphabet.getD n 'A'

/-- Index of a character in the Base64 alphabet, `none` for foreign characters. -/
def b64DecChar (c : Char) : Option Nat :=
  (List.range 64).find? (fun i => b64Alphabet.getD i 'A' = c)

/-- Go `base64.StdEncoding.EncodeToString`: three input bytes become four
alphabet characters; a trailing byte or byte pair is padded with `=`. -/
def b64encode : List Nat → List Char
  | a :: b :: c :: rest =>
    b64EncChar (a / 4) :: b64EncChar (a % 4 * 16 + b / 16) ::
    b64EncChar (b % 16 * 4 + c / 64) :: b64EncChar (c % 64) :: b64encode rest
  | [a, b] => [b64EncChar (a / 4), b64EncChar (a % 4 * 16 + b / 16), b64EncChar (b % 16 * 4), '=']
  | [a] => [b64EncChar (a / 4), b64EncChar (a % 4 * 16), '=', '=']
  | [] => []

/-- Go `base64.StdEncoding` decoding of a newline-free character stream:
quanta of four characters, `=` padding allowed only in the final quantum,
trailing bits discarded without a strictness check (Go's non-strict mode). -/
def b64decode : List Char → Option (List Nat)
  | [] => some []
  | c1 :: c2 :: c3 :: c4 :: rest =>
    match b64DecChar c1, b64DecChar c2 with
    | some a, some b =>
      if c3 = '=' then
        if c4 = '=' ∧ rest = [] then some [a * 4 + b / 16] else none
      else
        match b64DecChar c3 with
        | some c =>
          if c4 = '=' then
            if rest = [] then some [a * 4 + b / 16, b % 16 * 16 + c / 4] else none
          else
            match b64DecChar c4 with
            | some d =>
              (b64decode rest).map
                (fun tl => (a * 4 + b / 16) :: (b % 16 * 16 + c / 4) :: (c % 4 * 64 + d) :: tl)
            | none => none
        | none => none
    | _, _ => none
  | _ => none

/-- Go `base64.StdEncoding.DecodeString`: the decoder ignores carriage
returns and newlines anywhere in the input. -/
def goB64DecodeString (s : String) : Option (List Nat) :=
  b64decode (s.toList.filter (fun c => c ≠ '\n' ∧ c ≠ '\r'))

/-- The protocol PKCS#7 block size (`padBlockSize` in `crypt.go`). -/
def padBlockSize : Nat := 32

/-- Big-endian 32-bit read, `binary.BigEndian.Uint32` applied to the first
four bytes of a list. -/
def be32 (bs : List Nat) : Nat :=
  bs.getD 0 0 * 2 ^ 24 + bs.getD 1 0 * 2 ^ 16 + bs.getD 2 0 * 2 ^ 8 + bs.getD 3 0

/-- Big-endian 32-bit write, `binary.BigEndian.PutUint32` for `n < 2^32`. -/
def be32enc (n : Nat) : List Nat :=
  [n / 2 ^ 24 % 256, n / 2 ^ 16 % 256, n / 2 ^ 8 % 256, n % 256]

/-- Faithful translation of `pkcs7Pad` from `crypt.go`
(`bytesRepeat b count` is `List.replicate count b`). -/
def pkcs7Pad (data : List Nat) (blockSize : Nat) : List Nat :=
  let padLen := blockSize - data.length % blockSize
  data ++ List.replicate padLen padLen

/-- Faithful translation of `pkcs7Unpad` from `crypt.go`; the Go loop that
checks `data[len-1-i] == byte(padLen)` for `i < padLen` is expressed as a
check on the last `padLen` bytes. -/
def pkcs7Unpad (data : List Nat) (blockSize : Nat) : Except String (List Nat) :=
  if data.length = 0 ∨ data.length % blockSize ≠ 0 then .error "invalid padding size"
  else
    let padLen := data.getLastD 0
    if padLen = 0 ∨ padLen > blockSize then .error "invalid padding"
    else if (data.drop (data.length - padLen)).all (fun x => x = padLen) then
      .ok (data.take (data.length - padLen))
    else .error "invalid padding"

/-- Byte-wise XOR of two equal-length byte lists, as CBC chaining uses it. -/
def zipXor (a b : List Nat) : List Nat := List.zipWith (fun x y => x ^^^ y) a b

/-- Cut a byte list into 16-byte blocks (the implicit chunking done by
`cipher.CryptBlocks`); the fuel argument makes the recursion structural. -/
def chunks16Aux : Nat → List Nat → List (List Nat)
  | 0, _ => []
  | _, [] => []
  | fuel + 1, l => l.take 16 :: chunks16Aux fuel (l.drop 16)

/-- Cut a byte list into 16-byte blocks. -/
def chunks16 (l : List Nat) : List (List Nat) := chunks16Aux l.length l

/-- CBC encryption over a block list: `cipher.NewCBCEncrypter(block, iv)`
followed by `CryptBlocks`, with the AES block permutation as parameter `E`. -/
def cbcEnc (E : List Nat → List Nat) (prev : List Nat) : List (List Nat) → List (List Nat)
  | [] => []
  | p :: rest =>
    let c := E (zipXor p prev)
    c :: cbcEnc E c rest

/-- CBC decryption over a block list (`cipher.NewCBCDecrypter` plus
`CryptBlocks`), with the AES inverse permutation as parameter `D`. -/
def cbcDec (D : List Nat → List Nat) (prev : List Nat) : List (List Nat) → List (List Nat)
  | [] => []
  | c :: rest => zipXor (D c) prev :: cbcDec D c rest

/-- Error taxonomy of the crypt layer; each constructor corresponds to one
returned error in `crypt.go` (padding errors keep the Go message). -/
inductive CryptErr where
  | base64Decode
  | invalidCiphertextLength
  | padding (msg : String)
  | plaintextTooShort
  | invalidMessageLength
  | invalidSignature
  | queryUnescapeError
deriving DecidableEq, Repr

/-- Error result of `decodeAESKey` / `NewCrypt`: `invalidAESKey` is the
sentinel `ErrInvalidAESKey`; `decodeError` is the wrapped
`fmt.Errorf("decode aes key: %w", err)` for a Base64 failure. -/
inductive KeyErr where
  | invalidAESKey
  | decodeError
deriving DecidableEq, Repr

/-- Faithful translation of `decodeAESKey` from `crypt.go`: pad the encoded
key with `=` to a multiple of four characters, Base64-decode, and require
exactly 32 bytes.  (Go measures the key in bytes; for the ASCII keys of the
protocol this equals the character count used here.) -/
def decodeAESKey (encodingKey : String) : Except KeyErr (List Nat) :=
  if encodingKey.length = 0 then .error .invalidAESKey
  else
    let padding := (4 - encodingKey.length % 4) % 4
    let encoded := encodingKey ++ String.mk (List.replicate padding '=')
    match goB64DecodeString encoded with
    | none => .error .decodeError
    | some key => if key.length ≠ 32 then .error .invalidAESKey else .ok key

/-- Framing extraction, the tail of `decrypt` in `crypt.go` (steps four and
five): check the 20-byte minimum, read the big-endian length at offset 16,
check it against the remaining bytes, and slice out the message. -/
def extractMsg (plain : List Nat) : Except CryptErr (List Nat) :=
  if plain.length < 20 then .error .plaintextTooShort
  else
    let content := plain.drop 16
    let msgLen := be32 (content.take 4)
    if msgLen > content.length - 4 then .error .invalidMessageLength
    else .ok ((content.drop 4).take msgLen)

/-- Faithful translation of `decrypt` from `crypt.go`.  `aes.NewCipher`
cannot fail for the 32-byte keys produced by `decodeAESKey`, so the block
cipher is the parameter `D`; the IV is the first 16 key bytes.  The trailing
receive-id is deliberately not validated (the Go code comments it out). -/
def decrypt (D : List Nat → List Nat) (key : List Nat) (cipherText : String) :
    Except CryptErr (List Nat) :=
  match goB64DecodeString cipherText with
  | none => .error .base64Decode
  | some cipherData =>
    if cipherData.length % 16 ≠ 0 then .error .invalidCiphertextLength
    else
      let iv := key.take 16
      let plainPadded := (cbcDec D iv (chunks16 cipherData)).flatten
      match pkcs7Unpad plainPadded padBlockSize with
      | .error e => .error (.padding e)
      | .ok plain => extractMsg plain

/-- Faithful translation of `encrypt` from `crypt.go`: the 16 random prefix
bytes are the parameter `random` (Go draws them from `crypto/rand`), the
length field is `uint32(len(plain))`, i.e. the length modulo `2^32`, and the
receive-id is the configured corp id. -/
def encrypt (E : List Nat → List Nat) (key corpID random : List Nat) (plain : List Nat) :
    String :=
  let msgLen := plain.length % 2 ^ 32
  let buf := random ++ be32enc msgLen ++ plain ++ corpID
  let padded := pkcs7Pad buf padBlockSize
  let iv := key.take 16
  let cipherData := (cbcEnc E iv (chunks16 padded)).flatten
  String.mk (b64encode cipherData)

/-- Byte-lexicographic string order, Go `sort.Strings` order restricted to
the ASCII arguments the protocol uses. -/
def strLe (a b : String) : Bool := go a.toList b.toList where
  go : List Char → List Char → Bool
    | [], _ => true
    | _ :: _, [] => false
    | x :: xs, y :: ys => if x = y then go xs ys else decide (x < y)

/-- Insertion into a sorted string list. -/
def insertStr (x : String) : List String → List String
  | [] => [x]
  | y :: ys => if strLe x y then x :: y :: ys else y :: insertStr x ys

/-- Go `sort.Strings`: ascending lexicographic sort. -/
def sortStrings (l : List String) : List String := l.foldr insertStr []

/-- Faithful translation of `CalcSignature` from `crypt.go`: sort the four
fields, concatenate, then hash; `h` stands for the hex-encoded SHA1. -/
def calcSignature (h : String → String) (token timestamp nonce data : String) : String :=
  h (String.join (sortStrings [token, timestamp, nonce, data]))

/-- ASCII lowering of one character, the relevant case of Go's
case-insensitive `strings.EqualFold` on hex signatures. -/
def asciiLower (c : Char) : Char :=
  if 'A' ≤ c ∧ c ≤ 'Z' then Char.ofNat (c.toNat + 32) else c

/-- Case-insensitive string comparison (`strings.EqualFold` on ASCII). -/
def eqFold (a b : String) : Bool :=
  a.toList.map asciiLower = b.toList.map asciiLower

/-- Faithful translation of `validateSignature` from `crypt.go`. -/
def validateSignature (h : String → String) (token msgSignature timestamp nonce data : String) :
    Bool :=
  eqFold (calcSignature h token timestamp nonce data) msgSignature

/-- Go `net/url.QueryUnescape`: percent-decoding with `+` turned into a
space; malformed percent escapes fail. -/
def queryUnescape : List Char → Option (List Char)
  | [] => some []
  | '%' :: a :: b :: rest =>
    match hexDigit a, hexDigit b with
    | some ha, some hb => (queryUnescape rest).map (fun tl => Char.ofNat (ha * 16 + hb) :: tl)
    | _, _ => none
  | '%' :: _ => none
  | '+' :: rest => (queryUnescape rest).map (fun tl => ' ' :: tl)
  | c :: rest => (queryUnescape rest).map (fun tl => c :: tl)
where
  hexDigit (c : Char) : Option Nat :=
    if '0' ≤ c ∧ c ≤ '9' then some (c.toNat - '0'.toNat)
    else if 'a' ≤ c ∧ c ≤ 'f' then some (c.toNat - 'a'.toNat + 10)
    else if 'A' ≤ c ∧ c ≤ 'F' then some (c.toNat - 'A'.toNat + 10)
    else none

/-- Faithful translation of `VerifyURL` from `crypt.go`: validate the
signature over the raw `echoStr`, retry once over its query-unescaped form,
then decrypt — crucially, decrypt the **original** `echoStr` argument, which
is what the Go code does. -/
def verifyURL (D : List Nat → List Nat) (h : String → String) (token : String)
    (key : List Nat) (msgSignature timestamp nonce echoStr : String) :
    Except CryptErr (List Nat) :=
  let sigCheck : Except CryptErr Unit :=
    if validateSignature h token msgSignature timestamp nonce echoStr then .ok ()
    else
      match queryUnescape echoStr.toList with
      | none => .error .queryUnescapeError
      | some decoded =>
        if validateSignature h token msgSignature timestamp nonce (String.mk decoded) then .ok ()
        else .error .invalidSignature
  match sigCheck with
  | .error e => .error e
  | .ok _ => decrypt D key echoStr

/-- Value-level `ImagePayload` from `message.go` (the inbound-only `Data`
field is omitted: no claim touches it). -/
structure ImagePayloadV where
  url : String
  base64 : String
  md5 : String
deriving DecidableEq, Repr

/-- Value-level `MixedItem` from `message.go`: the `Text` and `Image`
pointers are flattened to optional values (aliasing through those pointers
is modelled separately, by `MixedItemP` and `World`). -/
structure MixedItemV where
  msgType : String
  text : Option String
  image : Option ImagePayloadV
deriving DecidableEq, Repr

/-- Payload carried by a chunk: Go has `Payload any` plus the `NoResponse`
sentinel; non-stream replies such as template cards are an opaque tag. -/
inductive PayloadVal where
  | noResponse
  | card (tag : Nat)
deriving DecidableEq, Repr

/-- The handler output unit `Chunk` (declared in `handler.go`, with the
`MsgItems` field used throughout `stream.go` and `bot.go`). -/
structure Chunk where
  content : String
  payload : Option PayloadVal
  msgItems : List MixedItemV
  isFinal : Bool
deriving DecidableEq, Repr

/-- Session state of one `Stream` from `stream.go`.  The time fields
(`CreatedAt`, `LastAccess`) and the first-packet snapshot are omitted: no
claim in scope depends on them.  The bounded channel is the queue list
(a blocked `publish` eventually appends, there being a single consumer). -/
structure StreamS where
  streamID : String
  msgID : String
  chatID : String
  userID : String
  responseURL : String
  finished : Bool
  queue : List Chunk
  lastChunk : Option Chunk
deriving DecidableEq, Repr

/-- The cumulative-snapshot computation from `publish` in `stream.go`: a
payload-free chunk is appended onto the previous snapshot's content; a
payload-carrying chunk has its content cleared and its items dropped.  The
`MsgItems` clone is the identity on list values. -/
def fullChunkOf (lastChunk : Option Chunk) (c : Chunk) : Chunk :=
  if c.payload.isNone then
    match lastChunk with
    | some lc => { c with content := lc.content ++ c.content }
    | none => c
  else
    { c with content := "", msgItems := [] }

/-- One `publish` call on a session (`stream.go`): store the cumulative
snapshot as `lastChunk`, enqueue it, and mark the session finished when the
snapshot is final (`setFinished` only ever sets the flag). -/
def publishStep (s : StreamS) (c : Chunk) : StreamS :=
  let fullChunk := fullChunkOf s.lastChunk c
  { s with
    lastChunk := some fullChunk
    queue := s.queue ++ [fullChunk]
    finished := s.finished || fullChunk.isFinal }

/-- The drain loop of `getLatestChunk`: keep the latest element and
or-fold the `isFinal` bits of everything seen. -/
def drainLoop (latest : Chunk) (finalSeen : Bool) : List Chunk → Chunk × Bool
  | [] => (latest, finalSeen)
  | c :: rest => drainLoop c (finalSeen || c.isFinal) rest

/-- One `getLatestChunk` call on a session (`stream.go`).  A non-empty queue
is the first `select` branch: drain everything immediately available, force
`isFinal` when any drained element was final, update `lastChunk` and the
finished flag.  An empty queue is the timeout branch: return a copy of
`lastChunk` only when the session is already finished. -/
def getLatestChunkStep (s : StreamS) : Option Chunk × StreamS :=
  match s.queue with
  | [] =>
    if s.finished then
      match s.lastChunk with
      | some lc => (some lc, s)
      | none => (none, s)
    else (none, s)
  | firstChunk :: rest =>
    let r := drainLoop firstChunk firstChunk.isFinal rest
    let latestChunk := if r.2 then { r.1 with isFinal := true } else r.1
    (some latestChunk,
      { s with
        queue := []
        lastChunk := some latestChunk
        finished := s.finished || latestChunk.isFinal })

/-- The fields of an inbound `Message` that `createOrGet` copies into a new
session. -/
structure MessageM where
  msgID : String
  chatID : String
  userID : String
  responseURL : String
deriving DecidableEq, Repr

/-- `StreamManager` state: the `streamID -> Stream` table and the
`msgID -> streamID` index, as association lists with Go-map overwrite
semantics (`lookupA` finds the most recent binding). -/
structure ManagerS where
  streams : List (String × StreamS)
  msgIndex : List (String × String)
deriving DecidableEq, Repr

/-- Lookup in an association list (newest binding first). -/
def lookupA {α : Type} (l : List (String × α)) (k : String) : Option α :=
  (l.find? (fun p => p.1 = k)).map (fun p => p.2)

/-- Faithful translation of `getStreamIDByMsg` from `stream.go`. -/
def getStreamIDByMsg (m : ManagerS) (msgID : String) : Option String :=
  if msgID = "" then none else lookupA m.msgIndex msgID

/-- Faithful translation of `getStream` from `stream.go`. -/
def getStream (m : ManagerS) (streamID : String) : Option StreamS :=
  if streamID = "" then none else lookupA m.streams streamID

/-- Faithful translation of `createOrGet` from `stream.go`.  The fresh
stream id drawn by `generateStreamID` is the parameter `freshID`; `touch`
only refreshes the omitted `LastAccess` time. -/
def createOrGet (m : ManagerS) (msg : MessageM) (freshID : String) :
    (StreamS × Bool) × ManagerS :=
  let existing : Option StreamS :=
    if msg.msgID ≠ "" then
      match getStreamIDByMsg m msg.msgID with
      | some streamID => getStream m streamID
      | none => none
    else none
  match existing with
  | some s => ((s, false), m)
  | none =>
    let stream : StreamS :=
      { streamID := freshID
        msgID := msg.msgID
        chatID := msg.chatID
        userID := msg.userID
        responseURL := msg.responseURL
        finished := false
        queue := []
        lastChunk := none }
    ((stream, true),
      { m with
        streams := (freshID, stream) :: m.streams
        msgIndex := if msg.msgID ≠ "" then (msg.msgID, freshID) :: m.msgIndex else m.msgIndex })

/-- Value-level `StreamReplyBody` from `message.go` (the optional
`Feedback` field is omitted: the builders never set it). -/
structure StreamReplyBodyV where
  id : String
  finish : Bool
  content : String
  msgItem : List MixedItemV
deriving DecidableEq, Repr

/-- Value-level `StreamReply` from `message.go`. -/
structure StreamReplyV where
  msgtype : String
  stream : StreamReplyBodyV
deriving DecidableEq, Repr

/-- Faithful translation of `BuildStreamReply` from `message.go`. -/
def BuildStreamReply (streamID content : String) (finish : Bool) : StreamReplyV :=
  { msgtype := "stream"
    stream := { id := streamID, finish := finish, content := content, msgItem := [] } }

/-- Faithful translation of `BuildStreamReplyWithMsgItems` from
`message.go`, at value level: the slice clone is the identity on list
values (its aliasing behaviour is modelled by `buildStreamReplyWithMsgItemsH`). -/
def BuildStreamReplyWithMsgItems (streamID content : String) (finish : Bool)
    (items : List MixedItemV) : StreamReplyV :=
  let reply := BuildStreamReply streamID content finish
  if finish ∧ items ≠ [] then
    { reply with stream := { reply.stream with msgItem := items } }
  else reply

/-- Top-level keys of the JSON serialization of a `StreamReplyBody`: the
`msg_item` key carries the tag `json:"msg_item,omitempty"`, so it is present
exactly when the slice is non-empty. -/
def streamBodyJsonKeys (b : StreamReplyBodyV) : List String :=
  ["id", "finish", "content"] ++ (if b.msgItem = [] then [] else ["msg_item"])

/-- What `refresh` in `bot.go` passes to `EncryptResponse`: either a stream
reply or, for a payload-carrying chunk, the payload itself. -/
inductive RefreshReply where
  | stream (r : StreamReplyV)
  | direct (p : PayloadVal)
deriving DecidableEq, Repr

/-- Reply selection of `refresh` in `bot.go`, given the stream id read from
the incoming payload (empty when `msg.Stream` is nil) and the chunk returned
by `getLatestChunk`.  The boolean records whether `markFinished` was called.
`EncryptResponse` itself is applied uniformly to the selected plaintext. -/
def refreshSelect (streamID : String) (chunk : Option Chunk) : RefreshReply × Bool :=
  if streamID = "" then (.stream (BuildStreamReply "" "" true), false)
  else
    match chunk with
    | none => (.stream (BuildStreamReply streamID "" false), false)
    | some c =>
      let marked := c.isFinal
      match c.payload with
      | some p => (.direct p, marked)
      | none =>
        if c.isFinal ∧ c.msgItems ≠ [] then
          (.stream (BuildStreamReplyWithMsgItems streamID c.content true c.msgItems), marked)
        else
          (.stream (BuildStreamReply streamID c.content c.isFinal), marked)

/-- Pointer-level `MixedItem`, for Go's reference semantics: `Text` and
`Image` are indices into the heaps of a `World`. -/
structure MixedItemP where
  msgType : String
  text : Option Nat
  image : Option Nat
deriving DecidableEq, Repr

/-- A small Go memory model for `BuildStreamReplyWithMsgItems`: slice
backing arrays of `MixedItem`, plus the cells that `*TextPayload` and
`*ImagePayload` pointers refer to. -/
structure World where
  arrays : List (List MixedItemP)
  texts : List String
  images : List ImagePayloadV
deriving DecidableEq, Repr

/-- Pointer-level stream reply: `msgItem` is the backing array of the
attached slice, or `none` when no `msg_item` is attached. -/
structure StreamReplyH where
  id : String
  finish : Bool
  content : String
  msgItem : Option Nat
deriving DecidableEq, Repr

/-- `BuildStreamReplyWithMsgItems` under Go reference semantics: when
`finish` holds and the items slice is non-empty, `make` plus `copy` allocate
a fresh backing array holding the same element values — element structs are
copied, the `Text`/`Image` pointers inside them are shared. -/
def buildStreamReplyWithMsgItemsH (w : World) (streamID content : String) (finish : Bool)
    (itemsRef : Nat) : World × StreamReplyH :=
  let items := w.arrays.getD itemsRef []
  if finish ∧ items ≠ [] then
    ({ w with arrays := w.arrays ++ [items] },
      { id := streamID, finish := finish, content := content, msgItem := some w.arrays.length })
  else
    (w, { id := streamID, finish := finish, content := content, msgItem := none })

/-- Caller mutation `items[i] = v` on a slice's backing array. -/
def setElem (w : World) (arrRef i : Nat) (v : MixedItemP) : World :=
  { w with arrays := w.arrays.set arrRef ((w.arrays.getD arrRef []).set i v) }

/-- Caller mutation through a nested pointer, such as
`items[i].Image.Base64 = …`: the shared `ImagePayload` cell is overwritten. -/
def setImage (w : World) (ptr : Nat) (v : ImagePayloadV) : World :=
  { w with images := w.images.set ptr v }

/-- Dereference one pointer-level item to its value under a world. -/
def viewItem (w : World) (it : MixedItemP) : MixedItemV :=
  { msgType := it.msgType
    text := it.text.map (fun p => w.texts.getD p "")
    image := it.image.map (fun p => w.images.getD p { url := "", base64 := "", md5 := "" }) }

/-- The item values a serialized reply would carry under a world: resolve
the attached backing array and dereference every item. -/
def viewReplyItems (w : World) (r : StreamReplyH) : List MixedItemV :=
  match r.msgItem with
  | none => []
  | some arrRef => (w.arrays.getD arrRef []).map (viewItem w)

/-- Specification-side characterization for the amended cumulative-content
claim: running concatenation of the content deltas, reset to empty by every
payload-carrying publish. -/
def specAccContent (acc : String) : List Chunk → String
  | [] => acc
  | c :: rest =>
    if c.payload.isNone then specAccContent (acc ++ c.content) rest
    else specAccContent "" rest

/-- Specification-side plain concatenation `d1 ++ … ++ dn` of the content
deltas of a publish sequence. -/
def specConcat : List Chunk → String
  | [] => ""
  | c :: rest => c.content ++ specConcat rest

end Wecom

namespace Wecom

theorem b64DecChar_encChar {n : Nat} (h : n < 64) : b64DecChar (b64EncChar n) = some n := by
  interval_cases n <;> rfl

theorem b64EncChar_ne_eq {n : Nat} (h : n < 64) :
    b64EncChar n ≠ '=' ∧ b64EncChar n ≠ '\n' ∧ b64EncChar n ≠ '\r' := by
  interval_cases n <;> exact ⟨by decide, by decide, by decide⟩

theorem b64encode_mem_ne {bs : List Nat} (hb : ∀ x ∈ bs, x < 256) :
    ∀ c ∈ b64encode bs, c ≠ '\n' ∧ c ≠ '\r' := by
  induction bs using b64encode.induct with
  | case1 a b c rest ih =>
    intro ch hch
    have ha : a < 256 := hb a (by simp)
    have hbb : b < 256 := hb b (by simp)
    have hc : c < 256 := hb c (by simp)
    rw [b64encode] at hch
    simp only [List.mem_cons] at hch
    rcases hch with h | h | h | h | h
    · subst h; exact (b64EncChar_ne_eq (by omega)).2
    · subst h; exact (b64EncChar_ne_eq (by omega)).2
    · subst h; exact (b64EncChar_ne_eq (by omega)).2
    · subst h; exact (b64EncChar_ne_eq (by omega)).2
    · exact ih (fun x hx => hb x (by simp [hx])) ch h
  | case2 a b =>
    intro ch hch
    have ha : a < 256 := hb a (by simp)
    have hbb : b < 256 := hb b (by simp)
    rw [b64encode] at hch
    simp only [List.mem_cons, List.not_mem_nil, or_false] at hch
    rcases hch with h | h | h | h
    · subst h; exact (b64EncChar_ne_eq (by omega)).2
    · subst h; exact (b64EncChar_ne_eq (by omega)).2
    · subst h; exact (b64EncChar_ne_eq (by omega)).2
    · subst h; exact ⟨by decide, by decide⟩
  | case3 a =>
    intro ch hch
    have ha : a < 256 := hb a (by simp)
    rw [b64encode] at hch
    simp only [List.mem_cons, List.not_mem_nil, or_false] at hch
    rcases hch with h | h | h | h
    · subst h; exact (b64EncChar_ne_eq (by omega)).2
    · subst h; exact (b64EncChar_ne_eq (by omega)).2
    · subst h; exact ⟨by decide, by decide⟩
    · subst h; exact ⟨by decide, by decide⟩
  | case4 => intro ch hch; rw [b64encode] at hch; cases hch

/-- Decoding inverts encoding on byte lists. -/
theorem b64decode_encode {bs : List Nat} (hb : ∀ x ∈ bs, x < 256) :
    b64decode (b64encode bs) = some bs := by
  induction bs using b64encode.induct with
  | case1 a b c rest ih =>
    have ha : a < 256 := hb a (by simp)
    have hbb : b < 256 := hb b (by simp)
    have hc : c < 256 := hb c (by simp)
    rw [b64encode, b64decode]
    rw [b64DecChar_encChar (by omega), b64DecChar_encChar (by omega)]
    dsimp only
    rw [if_neg (b64EncChar_ne_eq (n := b % 16 * 4 + c / 64) (by omega)).1]
    rw [b64DecChar_encChar (by omega)]
    dsimp only
    rw [if_neg (b64EncChar_ne_eq (n := c % 64) (by omega)).1]
    rw [b64DecChar_encChar (by omega)]
    dsimp only
    rw [ih (fun x hx => hb x (by simp [hx]))]
    simp only [Option.map_some']
    congr 1
    have e1 : a / 4 * 4 + (a % 4 * 16 + b / 16) / 16 = a := by omega
    have e2 : (a % 4 * 16 + b / 16) % 16 * 16 + (b % 16 * 4 + c / 64) / 4 = b := by omega
    have e3 : (b % 16 * 4 + c / 64) % 4 * 64 + c % 64 = c := by omega
    rw [e1, e2, e3]
  | case2 a b =>
    have ha : a < 256 := hb a (by simp)
    have hbb : b < 256 := hb b (by simp)
    rw [b64encode, b64decode]
    rw [b64DecChar_encChar (by omega), b64DecChar_encChar (by omega)]
    dsimp only
    rw [if_neg (b64EncChar_ne_eq (n := b % 16 * 4) (by omega)).1]
    rw [b64DecChar_encChar (by omega)]
    dsimp only
    rw [if_pos rfl, if_pos rfl]
    congr 1
    have e1 : a / 4 * 4 + (a % 4 * 16 + b / 16) / 16 = a := by omega
    have e2 : (a % 4 * 16 + b / 16) % 16 * 16 + b % 16 * 4 / 4 = b := by omega
    rw [e1, e2]
  | case3 a =>
    have ha : a < 256 := hb a (by simp)
    rw [b64encode, b64decode]
    rw [b64DecChar_encChar (by omega), b64DecChar_encChar (by omega)]
    dsimp only
    rw [if_pos rfl, if_pos ⟨rfl, rfl⟩]
    congr 1
    have e1 : a / 4 * 4 + a % 4 * 16 / 16 = a := by omega
    rw [e1]
  | case4 => rfl

theorem goB64DecodeString_encode {bs : List Nat} (hb : ∀ x ∈ bs, x < 256) :
    goB64DecodeString (String.mk (b64encode bs)) = some bs := by
  unfold goB64DecodeString
  have hfil : (String.mk (b64encode bs)).toList.filter (fun c => c ≠ '\n' ∧ c ≠ '\r')
      = b64encode bs := by
    apply List.filter_eq_self.mpr
    intro c hc
    have := b64encode_mem_ne hb c hc
    simp [this.1, this.2]
  rw [hfil, b64decode_encode hb]

theorem pkcs7_roundtrip (data : List Nat) :
    pkcs7Unpad (pkcs7Pad data padBlockSize) padBlockSize = .ok data := by
  have h32 : padBlockSize = 32 := rfl
  set padLen := padBlockSize - data.length % padBlockSize with hpd
  have hge : 1 ≤ padLen ∧ padLen ≤ 32 := by
    constructor <;> (rw [hpd, h32]; omega)
  have hpad : pkcs7Pad data padBlockSize = data ++ List.replicate padLen padLen := rfl
  have hlen : (data ++ List.replicate padLen padLen).length = data.length + padLen := by
    simp
  have hmod : (data.length + padLen) % 32 = 0 := by rw [hpd, h32]; omega
  have hlast : (data ++ List.replicate padLen padLen).getLastD 0 = padLen := by
    obtain ⟨k, hk⟩ : ∃ k, padLen = k + 1 := ⟨padLen - 1, by omega⟩
    rw [hk, List.replicate_succ', ← List.append_assoc]
    simp [List.getLastD_concat]
  rw [hpad]
  unfold pkcs7Unpad
  rw [if_neg (by rw [hlen, h32]; omega)]
  simp only [hlast]
  rw [if_neg (by rw [h32]; omega)]
  have hdt : (data ++ List.replicate padLen padLen).length - padLen = data.length := by
    rw [hlen]; omega
  rw [hdt]
  have hdrop : (data ++ List.replicate padLen padLen).drop data.length
      = List.replicate padLen padLen := by
    have := @List.drop_append _ data (List.replicate padLen padLen) 0
    simpa using this
  rw [hdrop]
  rw [if_pos (by simp [List.all_eq_true, List.eq_of_mem_replicate])]
  congr 1
  rw [List.take_append_of_le_length (le_refl _), List.take_length]

theorem chunks16Aux_flatten (blocks : List (List Nat))
    (h16 : ∀ b ∈ blocks, b.length = 16) (fuel : Nat)
    (hf : blocks.flatten.length ≤ fuel) :
    chunks16Aux fuel blocks.flatten = blocks := by
  induction blocks generalizing fuel with
  | nil =>
    cases fuel with
    | zero => rfl
    | succ f => rfl
  | cons b bs ih =>
    have hb : b.length = 16 := h16 b (by simp)
    have hflen : (b :: bs).flatten.length = 16 + bs.flatten.length := by
      simp [hb]
    cases fuel with
    | zero => omega
    | succ f =>
      obtain ⟨x, xs, hx⟩ : ∃ x xs, b = x :: xs := by
        cases b with
        | nil => simp at hb
        | cons x xs => exact ⟨x, xs, rfl⟩
      have hcons : (b :: bs).flatten = b ++ bs.flatten := by simp
      rw [hcons, hx]
      show (x :: (xs ++ bs.flatten)).take 16 :: chunks16Aux f ((x :: (xs ++ bs.flatten)).drop 16)
          = (x :: xs) :: bs
      rw [show (x :: (xs ++ bs.flatten)) = (x :: xs) ++ bs.flatten by simp]
      rw [← hx]
      rw [← hb, List.take_append_of_le_length (le_refl _), List.take_length]
      have hdrop : (b ++ bs.flatten).drop b.length = bs.flatten := by
        have := @List.drop_append _ b bs.flatten 0
        simpa using this
      rw [hdrop]
      rw [ih (fun bl hbl => h16 bl (by simp [hbl])) f (by omega)]

theorem zipXor_length {a b : List Nat} (h : a.length = b.length) :
    (zipXor a b).length = a.length := by
  simp [zipXor, h]

theorem zipXor_bounds {a b : List Nat} (ha : ∀ x ∈ a, x < 256) (hb : ∀ x ∈ b, x < 256) :
    ∀ x ∈ zipXor a b, x < 256 := by
  intro x hx
  rw [zipXor, List.mem_iff_getElem] at hx
  obtain ⟨i, hi, hxe⟩ := hx
  rw [List.getElem_zipWith] at hxe
  subst hxe
  have h256 : (256 : Nat) = 2 ^ 8 := rfl
  rw [h256]
  exact Nat.xor_lt_two_pow
    (h256 ▸ ha _ (List.getElem_mem _))
    (h256 ▸ hb _ (List.getElem_mem _))

theorem zipXor_cancel {a b : List Nat} (h : a.length = b.length) :
    zipXor (zipXor a b) b = a := by
  induction a generalizing b with
  | nil => cases b <;> rfl
  | cons x xs ih =>
    cases b with
    | nil => simp at h
    | cons y ys =>
      show ((x ^^^ y) ^^^ y) :: zipXor (zipXor xs ys) ys = x :: xs
      rw [Nat.xor_cancel_right, ih (by simpa using h)]

theorem cbcDec_cbcEnc (E D : List Nat → List Nat)
    (hED : ∀ b, b.length = 16 → (∀ x ∈ b, x < 256) → D (E b) = b)
    (hE : ∀ b, b.length = 16 → (∀ x ∈ b, x < 256) → (E b).length = 16 ∧ ∀ x ∈ E b, x < 256)
    (ps : List (List Nat)) :
    ∀ prev, prev.length = 16 → (∀ x ∈ prev, x < 256) →
      (∀ p ∈ ps, p.length = 16 ∧ ∀ x ∈ p, x < 256) →
      cbcDec D prev (cbcEnc E prev ps) = ps := by
  induction ps with
  | nil => intro prev _ _ _; rfl
  | cons p rest ih =>
    intro prev hprevLen hprevB hps
    have hp := hps p (by simp)
    have hxlen : (zipXor p prev).length = 16 := by rw [zipXor_length (by omega)]; exact hp.1
    have hxB : ∀ x ∈ zipXor p prev, x < 256 := zipXor_bounds hp.2 hprevB
    show zipXor (D (E (zipXor p prev))) prev :: cbcDec D (E (zipXor p prev)) (cbcEnc E (E (zipXor p prev)) rest)
        = p :: rest
    rw [hED _ hxlen hxB]
    rw [zipXor_cancel (by omega)]
    congr 1
    have hEp := hE (zipXor p prev) hxlen hxB
    exact ih (E (zipXor p prev)) hEp.1 hEp.2 (fun q hq => hps q (by simp [hq]))

theorem chunks16_spec (l : List Nat) (hmod : l.length % 16 = 0) :
    (chunks16 l).flatten = l ∧ ∀ b ∈ chunks16 l, b.length = 16 ∧ ∀ x ∈ b, x ∈ l := by
  unfold chunks16
  suffices h : ∀ fuel l2, List.length l2 ≤ fuel → List.length l2 % 16 = 0 →
      (chunks16Aux fuel l2).flatten = l2 ∧
        ∀ b ∈ chunks16Aux fuel l2, b.length = 16 ∧ ∀ x ∈ b, x ∈ l2 by
    exact h l.length l (le_refl _) hmod
  intro fuel
  induction fuel with
  | zero =>
    intro l2 hle _
    have : l2 = [] := List.length_eq_zero.mp (by omega)
    subst this
    exact ⟨rfl, by intro b hb; cases hb⟩
  | succ f ih =>
    intro l2 hle hmod2
    cases l2 with
    | nil => exact ⟨rfl, by intro b hb; cases hb⟩
    | cons y ys =>
      have hlen : (y :: ys).length ≥ 16 := by
        have : (y :: ys).length ≠ 0 := by simp
        omega
      have htk : ((y :: ys).take 16).length = 16 := by
        rw [List.length_take]; omega
      have hdlen : ((y :: ys).drop 16).length = (y :: ys).length - 16 := by
        rw [List.length_drop]
      have ihd := ih ((y :: ys).drop 16) (by omega) (by omega)
      refine ⟨?_, ?_⟩
      · show ((y :: ys).take 16 :: chunks16Aux f ((y :: ys).drop 16)).flatten = y :: ys
        rw [List.flatten_cons, ihd.1, List.take_append_drop]
      · intro b hb
        rcases List.mem_cons.mp hb with hb1 | hb2
        · subst hb1
          exact ⟨htk, fun x hx => List.mem_of_mem_take hx⟩
        · obtain ⟨hbl, hbm⟩ := ihd.2 b hb2
          exact ⟨hbl, fun x hx => List.mem_of_mem_drop (hbm x hx)⟩

theorem cbcEnc_spec (E : List Nat → List Nat)
    (hE : ∀ b, b.length = 16 → (∀ x ∈ b, x < 256) → (E b).length = 16 ∧ ∀ x ∈ E b, x < 256)
    (ps : List (List Nat)) :
    ∀ prev, prev.length = 16 → (∀ x ∈ prev, x < 256) →
      (∀ p ∈ ps, p.length = 16 ∧ ∀ x ∈ p, x < 256) →
      ∀ cb ∈ cbcEnc E prev ps, cb.length = 16 ∧ ∀ x ∈ cb, x < 256 := by
  induction ps with
  | nil => intro prev _ _ _ cb hcb; cases hcb
  | cons p rest ih =>
    intro prev hprevLen hprevB hps cb hcb
    have hp := hps p (by simp)
    have hxlen : (zipXor p prev).length = 16 := by rw [zipXor_length (by omega)]; exact hp.1
    have hxB : ∀ x ∈ zipXor p prev, x < 256 := zipXor_bounds hp.2 hprevB
    have hEp := hE (zipXor p prev) hxlen hxB
    rcases List.mem_cons.mp hcb with hcb1 | hcb2
    · subst hcb1; exact hEp
    · exact ih (E (zipXor p prev)) hEp.1 hEp.2 (fun q hq => hps q (by simp [hq])) cb hcb2

theorem flatten_all16_length (bls : List (List Nat)) (h : ∀ b ∈ bls, b.length = 16) :
    bls.flatten.length = 16 * bls.length := by
  induction bls with
  | nil => rfl
  | cons b bs ih =>
    have hb : b.length = 16 := h b (by simp)
    simp only [List.flatten_cons, List.length_append, List.length_cons, hb,
      ih (fun q hq => h q (by simp [hq]))]
    ring

theorem be32_be32enc {n : Nat} (h : n < 2 ^ 32) : be32 (be32enc n) = n := by
  unfold be32 be32enc
  simp only [List.getD_cons_zero, List.getD_cons_succ]
  omega

/-- **C1.** For every plaintext byte string `P` and every `Crypt` context —
any token, any 32-byte AES key (as decoded from a 43-character encoding
key), any receive id — and any 16 random prefix bytes, decrypting the
result of `encrypt P` recovers exactly `P`: `decrypt` strips the Base64
layer, the CBC layer with IV = the first 16 key bytes, the PKCS#7 padding
at block size 32, the 16-byte random prefix and the 4-byte big-endian
length field, and returns the payload bytes unchanged.  The AES-256 block
permutation and its inverse are the parameters `E`/`D`. -/
theorem encrypt_decrypt_roundtrip (E D : List Nat → List Nat)
    (key corpID random plain : List Nat)
    (hED : ∀ b, b.length = 16 → (∀ x ∈ b, x < 256) → D (E b) = b)
    (hE : ∀ b, b.length = 16 → (∀ x ∈ b, x < 256) → (E b).length = 16 ∧ ∀ x ∈ E b, x < 256)
    (hkeyLen : key.length = 32) (hkeyB : ∀ x ∈ key, x < 256)
    (hrandLen : random.length = 16) (hrandB : ∀ x ∈ random, x < 256)
    (hcorpB : ∀ x ∈ corpID, x < 256) (hplainB : ∀ x ∈ plain, x < 256)
    (hplainLen : plain.length < 2 ^ 32) :
    decrypt D key (encrypt E key corpID random plain) = .ok plain := by
  have hmsgLen : plain.length % 2 ^ 32 = plain.length := Nat.mod_eq_of_lt hplainLen
  set buf := random ++ be32enc (plain.length % 2 ^ 32) ++ plain ++ corpID with hbuf
  set padded := pkcs7Pad buf padBlockSize with hpadded
  have hbufB : ∀ x ∈ buf, x < 256 := by
    intro x hx
    rw [hbuf] at hx
    simp only [List.mem_append] at hx
    rcases hx with ((hx | hx) | hx) | hx
    · exact hrandB x hx
    · rw [hmsgLen] at hx
      unfold be32enc at hx
      simp only [List.mem_cons, List.not_mem_nil, or_false] at hx
      rcases hx with h | h | h | h <;> omega
    · exact hplainB x hx
    · exact hcorpB x hx
  have hpadB : ∀ x ∈ padded, x < 256 := by
    intro x hx
    rw [hpadded] at hx
    unfold pkcs7Pad at hx
    rcases List.mem_append.mp hx with hx | hx
    · exact hbufB x hx
    · have := List.eq_of_mem_replicate hx
      subst this
      show padBlockSize - buf.length % padBlockSize < 256
      have : padBlockSize = 32 := rfl
      omega
  have hpadMod32 : padded.length % 32 = 0 := by
    rw [hpadded]
    unfold pkcs7Pad
    have h32 : padBlockSize = 32 := rfl
    rw [List.length_append, List.length_replicate, h32]
    omega
  have hpadMod16 : padded.length % 16 = 0 := by omega
  obtain ⟨hflat, hblocks⟩ := chunks16_spec padded hpadMod16
  have hblocks2 : ∀ b ∈ chunks16 padded, b.length = 16 ∧ ∀ x ∈ b, x < 256 :=
    fun b hb => ⟨(hblocks b hb).1, fun x hx => hpadB x ((hblocks b hb).2 x hx)⟩
  have hivLen : (key.take 16).length = 16 := by rw [List.length_take]; omega
  have hivB : ∀ x ∈ key.take 16, x < 256 := fun x hx => hkeyB x (List.mem_of_mem_take hx)
  have hcbB : ∀ cb ∈ cbcEnc E (key.take 16) (chunks16 padded), cb.length = 16 ∧ ∀ x ∈ cb, x < 256 :=
    cbcEnc_spec E hE (chunks16 padded) (key.take 16) hivLen hivB hblocks2
  have hcipherB : ∀ x ∈ (cbcEnc E (key.take 16) (chunks16 padded)).flatten, x < 256 := by
    intro x hx
    rw [List.mem_flatten] at hx
    obtain ⟨cb, hcb, hxcb⟩ := hx
    exact (hcbB cb hcb).2 x hxcb
  have hcipherLen : (cbcEnc E (key.take 16) (chunks16 padded)).flatten.length % 16 = 0 := by
    rw [flatten_all16_length _ (fun cb hcb => (hcbB cb hcb).1)]
    omega
  show decrypt D key (String.mk (b64encode (cbcEnc E (key.take 16) (chunks16 padded)).flatten))
      = .ok plain
  unfold decrypt
  rw [goB64DecodeString_encode hcipherB]
  simp only
  rw [if_neg (by omega)]
  have hchunksCipher : chunks16 (cbcEnc E (key.take 16) (chunks16 padded)).flatten
      = cbcEnc E (key.take 16) (chunks16 padded) := by
    unfold chunks16
    exact chunks16Aux_flatten _ (fun cb hcb => (hcbB cb hcb).1) _ (le_refl _)
  rw [hchunksCipher]
  rw [cbcDec_cbcEnc E D hED hE (chunks16 padded) (key.take 16) hivLen hivB hblocks2]
  rw [hflat]
  rw [hpadded, pkcs7_roundtrip]
  unfold extractMsg
  dsimp only
  have hbufLen : buf.length = 16 + 4 + plain.length + corpID.length := by
    rw [hbuf]
    simp [be32enc, hrandLen]
    omega
  rw [if_neg (by omega)]
  have hcontent : buf.drop 16 = be32enc (plain.length % 2 ^ 32) ++ (plain ++ corpID) := by
    rw [hbuf]
    rw [List.append_assoc, List.append_assoc]
    have := @List.drop_append _ random (be32enc (plain.length % 2 ^ 32) ++ (plain ++ corpID)) 0
    rw [hrandLen] at this
    simpa using this
  rw [hcontent]
  have henclen : (be32enc (plain.length % 2 ^ 32)).length = 4 := rfl
  have htake4 : (be32enc (plain.length % 2 ^ 32) ++ (plain ++ corpID)).take 4
      = be32enc (plain.length % 2 ^ 32) := by
    rw [List.take_append_of_le_length (by rw [henclen]), ← henclen, List.take_length]
  rw [htake4, hmsgLen, be32_be32enc hplainLen]
  have hlen2 : (be32enc plain.length ++ (plain ++ corpID)).length
      = 4 + (plain.length + corpID.length) := by
    simp [be32enc]
    omega
  rw [if_neg (by omega)]
  have hdrop4 : (be32enc plain.length ++ (plain ++ corpID)).drop 4
      = plain ++ corpID := by
    have henclen2 : (be32enc plain.length).length = 4 := rfl
    have := @List.drop_append _ (be32enc plain.length) (plain ++ corpID) 0
    rw [henclen2] at this
    simpa using this
  rw [hdrop4]
  rw [List.take_append_of_le_length (le_refl _), List.take_length]

/-- Witness for C1 at a concrete input: the identity block permutation, the
zero key, an empty receive id, zero random bytes and the plaintext
`[1, 2, 3]`. -/
theorem encrypt_decrypt_roundtrip_witness :
    decrypt (fun b => b) (List.replicate 32 0)
      (encrypt (fun b => b) (List.replicate 32 0) [] (List.replicate 16 0) [1, 2, 3])
      = .ok [1, 2, 3] := by
  apply encrypt_decrypt_roundtrip (fun b => b) (fun b => b)
    (List.replicate 32 0) [] (List.replicate 16 0) [1, 2, 3]
  · intro b _ _; rfl
  · intro b hb hbb; exact ⟨hb, hbb⟩
  · decide
  · decide
  · decide
  · decide
  · decide
  · decide
  · decide

/-- **C8 (counterexample).** The claim says construction fails *with the
`InvalidAESKey` error* exactly when the Base64 decode fails or the length is
wrong.  On the key `"!!!"` the Base64 decode of the padded string `"!!!="`
fails, yet `decodeAESKey` returns the wrapped decode error, not
`ErrInvalidAESKey`. -/
theorem decodeAESKey_decode_failure_not_invalidAESKey :
    goB64DecodeString "!!!=" = none ∧
    decodeAESKey "!!!" = .error .decodeError ∧
    KeyErr.decodeError ≠ KeyErr.invalidAESKey := by
  refine ⟨by decide, by decide, by decide⟩

/-- **C8 (amended).** Crypt construction appends `=` until the key length is
a multiple of four, Base64-decodes, and requires exactly 32 bytes.  It
*fails* exactly when the decode fails or the decoded length is not 32, and
otherwise succeeds with the 32-byte key; but the `InvalidAESKey` error
specifically is returned only for an empty key or a wrong decoded length,
while a Base64 decode failure surfaces as the wrapped decode error. -/
theorem decodeAESKey_spec (k : String) :
    (∀ bs, decodeAESKey k = .ok bs ↔
      (k.length ≠ 0 ∧
        goB64DecodeString (k ++ String.mk (List.replicate ((4 - k.length % 4) % 4) '='))
          = some bs ∧ bs.length = 32)) ∧
    (decodeAESKey k = .error .decodeError ↔
      (k.length ≠ 0 ∧
        goB64DecodeString (k ++ String.mk (List.replicate ((4 - k.length % 4) % 4) '='))
          = none)) ∧
    (decodeAESKey k = .error .invalidAESKey ↔
      (k.length = 0 ∨
        ∃ bs, goB64DecodeString (k ++ String.mk (List.replicate ((4 - k.length % 4) % 4) '='))
            = some bs ∧ bs.length ≠ 32)) := by
  unfold decodeAESKey
  by_cases hk : k.length = 0
  · rw [if_pos hk]
    refine ⟨?_, ?_, ?_⟩
    · intro bs
      constructor
      · intro h; cases h
      · rintro ⟨hne, _, _⟩; exact absurd hk hne
    · constructor
      · intro h; cases h
      · rintro ⟨hne, _⟩; exact absurd hk hne
    · constructor
      · intro _; exact Or.inl hk
      · intro _; rfl
  · rw [if_neg hk]
    dsimp only
    cases hdec : goB64DecodeString (k ++ String.mk (List.replicate ((4 - k.length % 4) % 4) '=')) with
    | none =>
      refine ⟨?_, ?_, ?_⟩
      · intro bs
        constructor
        · intro h; cases h
        · rintro ⟨_, hsome, _⟩; cases hsome
      · constructor
        · intro _; exact ⟨hk, rfl⟩
        · intro _; rfl
      · constructor
        · intro h; cases h
        · rintro (h | ⟨bs, hsome, _⟩)
          · exact absurd h hk
          · cases hsome
    | some key =>
      dsimp only
      by_cases hlen : key.length ≠ 32
      · rw [if_pos hlen]
        refine ⟨?_, ?_, ?_⟩
        · intro bs
          constructor
          · intro h; cases h
          · rintro ⟨_, hsome, hbs⟩
            cases hsome
            exact absurd hbs hlen
        · constructor
          · intro h; cases h
          · rintro ⟨_, hnone⟩; cases hnone
        · constructor
          · intro _; exact Or.inr ⟨key, rfl, hlen⟩
          · intro _; rfl
      · rw [if_neg hlen]
        push_neg at hlen
        refine ⟨?_, ?_, ?_⟩
        · intro bs
          constructor
          · intro h
            cases h
            exact ⟨hk, rfl, hlen⟩
          · rintro ⟨_, hsome, _⟩
            cases hsome
            rfl
        · constructor
          · intro h; cases h
          · rintro ⟨_, hnone⟩; cases hnone
        · constructor
          · intro h; cases h
          · rintro (h | ⟨bs, hsome, hbs⟩)
            · exact absurd h hk
            · cases hsome
              exact absurd hlen hbs

/-- Witness for C8 at the documentation sample key: the 43-character key
decodes to 32 bytes, so construction succeeds. -/
theorem decodeAESKey_spec_witness :
    decodeAESKey "jWmYm7qr5nMoAUwZRjGtBxmz3KA1tkAj3ykkR6q2B2C"
      = .ok ((goB64DecodeString "jWmYm7qr5nMoAUwZRjGtBxmz3KA1tkAj3ykkR6q2B2C=").getD []) :=
  ((decodeAESKey_spec "jWmYm7qr5nMoAUwZRjGtBxmz3KA1tkAj3ykkR6q2B2C").1 _).mpr
    ⟨by decide, by decide, by decide⟩

/-- **C9.** Framing extraction in `decrypt` is total and in-bounds: a
plaintext shorter than 20 bytes, or a length field exceeding the bytes
remaining after offset 20, yields an error; and every successful `decrypt`
result is the well-defined sub-range of the unpadded plaintext starting at
offset 20 whose length is the big-endian field at offset 16. -/
theorem decrypt_framing_safe (D : List Nat → List Nat) (key : List Nat) (cipherText : String) :
    (∀ plain, plain.length < 20 → extractMsg plain = .error .plaintextTooShort) ∧
    (∀ plain, 20 ≤ plain.length → plain.length - 20 < be32 ((plain.drop 16).take 4) →
      extractMsg plain = .error .invalidMessageLength) ∧
    (∀ msg, decrypt D key cipherText = .ok msg →
      ∃ plain,
        pkcs7Unpad ((cbcDec D (key.take 16)
            (chunks16 ((goB64DecodeString cipherText).getD []))).flatten) padBlockSize
          = .ok plain ∧
        20 ≤ plain.length ∧
        msg = (plain.drop 20).take (be32 ((plain.drop 16).take 4)) ∧
        msg.length = be32 ((plain.drop 16).take 4) ∧
        20 + msg.length ≤ plain.length) := by
  have hdrop20 : ∀ plain : List Nat, (plain.drop 16).drop 4 = plain.drop 20 := by
    intro plain
    rw [List.drop_drop]
  refine ⟨?_, ?_, ?_⟩
  · intro plain h
    unfold extractMsg
    rw [if_pos h]
  · intro plain h20 hbig
    unfold extractMsg
    rw [if_neg (by omega)]
    have hclen : (plain.drop 16).length = plain.length - 16 := by
      rw [List.length_drop]
    rw [if_pos (by omega)]
  · intro msg hok
    unfold decrypt at hok
    cases hdec : goB64DecodeString cipherText with
    | none => rw [hdec] at hok; cases hok
    | some cipherData =>
      rw [hdec] at hok
      dsimp only at hok
      by_cases hmod : cipherData.length % 16 ≠ 0
      · rw [if_pos hmod] at hok; cases hok
      · rw [if_neg hmod] at hok
        cases hunpad : pkcs7Unpad ((cbcDec D (key.take 16) (chunks16 cipherData)).flatten)
            padBlockSize with
        | error e => rw [hunpad] at hok; cases hok
        | ok plain =>
          rw [hunpad] at hok
          dsimp only at hok
          refine ⟨plain, hunpad, ?_⟩
          unfold extractMsg at hok
          dsimp only at hok
          by_cases h20 : plain.length < 20
          · rw [if_pos h20] at hok; cases hok
          · rw [if_neg h20] at hok
            have hclen : (plain.drop 16).length = plain.length - 16 := by
              rw [List.length_drop]
            by_cases hguard : be32 ((plain.drop 16).take 4) > (plain.drop 16).length - 4
            · rw [if_pos hguard] at hok; cases hok
            · rw [if_neg hguard] at hok
              cases hok
              have hmsg : (plain.drop 16).drop 4 = plain.drop 20 := hdrop20 plain
              refine ⟨by omega, by rw [hmsg], ?_, ?_⟩
              · rw [hmsg, List.length_take, List.length_drop]
                omega
              · rw [hmsg, List.length_take, List.length_drop]
                omega

/-- Witness for C9: the empty plaintext is shorter than 20 bytes, so the
framing stage reports `plaintext too short`. -/
theorem decrypt_framing_safe_witness :
    extractMsg [] = .error .plaintextTooShort :=
  (decrypt_framing_safe (fun b => b) [] "").1 [] (by decide)

/-- **C5.** Evaluation of `VerifyURL` at the failing input of the claimed
`'+'`-repair scenario, with the identity block permutation and the identity
hash: `encrypt P` (for `P = "hi"`, zero key, empty receive id, random
prefix starting with byte 251) contains `'+'`; the caller passes the
query-decoded value (every `'+'` turned into `' '`) with a signature
computed over the original.  `decrypt` of the original does recover `P`,
but `VerifyURL` returns `ErrInvalidSignature` instead of succeeding: the
URL-decode retry cannot turn `' '` back into `'+'` (`QueryUnescape` maps
`'+'` to `' '`, never the reverse), and even when the retry signature
matches, the code decrypts the raw `echoStr` rather than the decoded one. -/
theorem verifyURL_plus_repair_fails :
    ((encrypt (fun b => b) (List.replicate 32 0) [] (251 :: List.replicate 15 0)
        [104, 105]).toList.contains '+') = true ∧
    decrypt (fun b => b) (List.replicate 32 0)
        (encrypt (fun b => b) (List.replicate 32 0) [] (251 :: List.replicate 15 0) [104, 105])
      = .ok [104, 105] ∧
    verifyURL (fun b => b) (fun s => s) "token" (List.replicate 32 0)
        (calcSignature (fun s => s) "token" "1700000000" "nonce"
          (encrypt (fun b => b) (List.replicate 32 0) [] (251 :: List.replicate 15 0)
            [104, 105]))
        "1700000000" "nonce"
        (String.mk ((encrypt (fun b => b) (List.replicate 32 0) []
            (251 :: List.replicate 15 0) [104, 105]).toList.map
          (fun c => if c = '+' then ' ' else c)))
      = .error .invalidSignature := by
  refine ⟨by decide, by decide, by decide⟩

/-- **C2 (counterexample).** The claim says payload-carrying publishes do
not disturb the accumulated text.  Publishing the delta `"a"`, then a
payload chunk, then the delta `"b"` leaves `lastChunk.content = "b"`, not
`"a" ++ "b"`: the payload publish resets the accumulation. -/
theorem publish_payload_resets_content :
    (([{ content := "a", payload := none, msgItems := [], isFinal := false },
       { content := "", payload := some (.card 0), msgItems := [], isFinal := false },
       { content := "b", payload := none, msgItems := [], isFinal := false }] :
        List Chunk).foldl publishStep
      { streamID := "sid", msgID := "", chatID := "", userID := "", responseURL := "",
        finished := false, queue := [], lastChunk := none }).lastChunk.map Chunk.content
      = some "b" ∧ ("b" : String) ≠ "a" ++ "b" := by
  refine ⟨by decide, by decide⟩

/-- Helper for C2: folding `publish` from a state whose `lastChunk` holds
accumulated content `lc.content` computes `specAccContent lc.content`. -/
theorem publish_fold_content (cs : List Chunk) :
    ∀ s lc, s.lastChunk = some lc →
      (((cs.foldl publishStep s).lastChunk.map Chunk.content).getD "")
        = specAccContent lc.content cs := by
  induction cs with
  | nil =>
    intro s lc hl
    simp [specAccContent, hl]
  | cons c rest ih =>
    intro s lc hl
    rw [List.foldl_cons, specAccContent]
    by_cases hp : c.payload.isNone
    · rw [if_pos hp]
      have hstep : (publishStep s c).lastChunk = some { c with content := lc.content ++ c.content } := by
        unfold publishStep fullChunkOf
        rw [if_pos hp, hl]
      exact ih (publishStep s c) _ hstep
    · rw [if_neg hp]
      have hstep : (publishStep s c).lastChunk
          = some { c with content := "", msgItems := [] } := by
        unfold publishStep fullChunkOf
        rw [if_neg hp]
      exact ih (publishStep s c) _ hstep

/-- Helper for C2: with no payload-carrying publish the characterization is
the plain concatenation of the deltas. -/
theorem specAccContent_concat (cs : List Chunk) (hnp : ∀ c ∈ cs, c.payload = none) :
    ∀ acc, specAccContent acc cs = acc ++ specConcat cs := by
  induction cs with
  | nil =>
    intro acc
    show acc = acc ++ ""
    exact (String.append_empty acc).symm
  | cons c rest ih =>
    intro acc
    rw [specAccContent, specConcat]
    have hp : c.payload.isNone := by rw [hnp c (by simp)]; rfl
    rw [if_pos hp, ih (fun q hq => hnp q (by simp [hq])) (acc ++ c.content)]
    rw [String.append_assoc]

/-- **C2 (amended).** For every session and every finite sequence of
publishes, the final `lastChunk.content` equals the concatenation of the
content deltas published after the most recent payload-carrying publish —
a payload-carrying publish resets the accumulated text to empty.  In
particular, when no publish carries a payload the final content is
`d1 ++ … ++ dn`. -/
theorem publish_cumulative_content (cs : List Chunk) (s : StreamS)
    (hinit : s.lastChunk = none) :
    (((cs.foldl publishStep s).lastChunk.map Chunk.content).getD ""
      = specAccContent "" cs) ∧
    ((∀ c ∈ cs, c.payload = none) →
      ((cs.foldl publishStep s).lastChunk.map Chunk.content).getD "" = specConcat cs) := by
  have hmain : ((cs.foldl publishStep s).lastChunk.map Chunk.content).getD ""
      = specAccContent "" cs := by
    cases cs with
    | nil => simp [hinit, specAccContent]
    | cons c rest =>
      rw [List.foldl_cons, specAccContent]
      by_cases hp : c.payload.isNone
      · rw [if_pos hp]
        have hstep : (publishStep s c).lastChunk = some c := by
          unfold publishStep fullChunkOf
          rw [if_pos hp, hinit]
        have := publish_fold_content rest (publishStep s c) c hstep
        rw [this, String.empty_append]
      · rw [if_neg hp]
        have hstep : (publishStep s c).lastChunk
            = some { c with content := "", msgItems := [] } := by
          unfold publishStep fullChunkOf
          rw [if_neg hp]
        exact publish_fold_content rest (publishStep s c) _ hstep
  refine ⟨hmain, fun hnp => ?_⟩
  rw [hmain, specAccContent_concat cs hnp ""]
  exact String.empty_append _

/-- Witness for C2 at a concrete input: three deltas with no payload
publish concatenate. -/
theorem publish_cumulative_content_witness :
    ((([{ content := "He", payload := none, msgItems := [], isFinal := false },
        { content := "ll", payload := none, msgItems := [], isFinal := false },
        { content := "o", payload := none, msgItems := [], isFinal := true }] :
         List Chunk).foldl publishStep
       { streamID := "sid", msgID := "", chatID := "", userID := "", responseURL := "",
         finished := false, queue := [], lastChunk := none }).lastChunk.map
        Chunk.content).getD ""
      = specConcat [{ content := "He", payload := none, msgItems := [], isFinal := false },
        { content := "ll", payload := none, msgItems := [], isFinal := false },
        { content := "o", payload := none, msgItems := [], isFinal := true }] :=
  (publish_cumulative_content _ _ (by decide)).2 (by decide)

/-- Helper for C3: the drain loop returns the last element seen and the
or-fold of the `isFinal` bits. -/
theorem drainLoop_spec (rest : List Chunk) :
    ∀ latest fs, drainLoop latest fs rest
      = (List.getLast (latest :: rest) (by simp), fs || rest.any Chunk.isFinal) := by
  induction rest with
  | nil =>
    intro latest fs
    simp [drainLoop]
  | cons c rest2 ih =>
    intro latest fs
    rw [drainLoop, ih, List.any_cons, ← Bool.or_assoc]
    congr 1

/-- **C3.** When the queue holds `N ≥ 1` snapshots, `getLatestChunk`
returns the most recently enqueued one, with its `isFinal` bit replaced by
the or-fold of the `isFinal` bits of all `N` drained snapshots — so the
returned `isFinal` is true exactly when at least one drained snapshot was
final. -/
theorem getLatestChunk_coalesces (s : StreamS) (h : s.queue ≠ []) :
    (getLatestChunkStep s).1
      = s.queue.getLast?.map (fun c => { c with isFinal := s.queue.any Chunk.isFinal }) := by
  cases hq : s.queue with
  | nil => exact absurd hq h
  | cons firstChunk rest =>
    unfold getLatestChunkStep
    rw [hq]
    dsimp only
    rw [drainLoop_spec rest firstChunk firstChunk.isFinal]
    dsimp only
    rw [List.getLast?_eq_getLast _ (by simp)]
    simp only [Option.map_some', List.any_cons]
    by_cases hfs : (firstChunk.isFinal || rest.any Chunk.isFinal) = true
    · rw [if_pos hfs, hfs]
    · rw [if_neg hfs]
      have hall : (firstChunk.isFinal || rest.any Chunk.isFinal) = false :=
        Bool.not_eq_true _ ▸ (by simpa using hfs)
      rw [hall]
      have hlastF : (List.getLast (firstChunk :: rest) (by simp)).isFinal = false := by
        have hmem := @List.getLast_mem _ (firstChunk :: rest) (by simp)
        rcases List.mem_cons.mp hmem with hm | hm
        · rw [hm]
          exact Bool.or_eq_false_iff.mp hall |>.1
        · have := Bool.or_eq_false_iff.mp hall |>.2
          have hnone := List.any_eq_false.mp this
          exact Bool.not_eq_true _ ▸ (by simpa using hnone _ hm)
      congr 1
      cases hlc : List.getLast (firstChunk :: rest) (by simp) with
      | mk content payload msgItems isFinal =>
        rw [hlc] at hlastF
        simp only at hlastF
        simp [hlastF]

/-- Witness for C3 at a concrete queue of two snapshots, the first of them
final: the call returns the second snapshot with `isFinal` forced true. -/
theorem getLatestChunk_coalesces_witness :
    (getLatestChunkStep
      { streamID := "sid", msgID := "", chatID := "", userID := "", responseURL := "",
        finished := false,
        queue := [{ content := "a", payload := none, msgItems := [], isFinal := true },
                  { content := "ab", payload := none, msgItems := [], isFinal := false }],
        lastChunk := none }).1
      = some { content := "ab", payload := none, msgItems := [], isFinal := true } := by
  have := getLatestChunk_coalesces
    { streamID := "sid", msgID := "", chatID := "", userID := "", responseURL := "",
      finished := false,
      queue := [{ content := "a", payload := none, msgItems := [], isFinal := true },
                { content := "ab", payload := none, msgItems := [], isFinal := false }],
      lastChunk := none } (by decide)
  rw [this]
  decide

/-- **C4 (counterexample).** The claim says that once `finished = true` no
further publish is externally observable.  After a final chunk is published
and consumed (`finished = true`, queue drained), publishing the delta `"b"`
makes the next `getLatestChunk` return the new snapshot `"ab"` — the
publish changed what a later caller sees. -/
theorem publish_after_finished_visible :
    (getLatestChunkStep (publishStep
        { streamID := "sid", msgID := "", chatID := "", userID := "", responseURL := "",
          finished := false, queue := [], lastChunk := none }
        { content := "a", payload := none, msgItems := [], isFinal := true })).2.finished
      = true ∧
    (getLatestChunkStep (publishStep
        (getLatestChunkStep (publishStep
          { streamID := "sid", msgID := "", chatID := "", userID := "", responseURL := "",
            finished := false, queue := [], lastChunk := none }
          { content := "a", payload := none, msgItems := [], isFinal := true })).2
        { content := "b", payload := none, msgItems := [], isFinal := false })).1
      = some { content := "ab", payload := none, msgItems := [], isFinal := false } ∧
    (getLatestChunkStep (publishStep
        (getLatestChunkStep (publishStep
          { streamID := "sid", msgID := "", chatID := "", userID := "", responseURL := "",
            finished := false, queue := [], lastChunk := none }
          { content := "a", payload := none, msgItems := [], isFinal := true })).2
        { content := "b", payload := none, msgItems := [], isFinal := false })).1
      ≠ (getLatestChunkStep
        (getLatestChunkStep (publishStep
          { streamID := "sid", msgID := "", chatID := "", userID := "", responseURL := "",
            finished := false, queue := [], lastChunk := none }
          { content := "a", payload := none, msgItems := [], isFinal := true })).2).1 := by
  refine ⟨by decide, by decide, by decide⟩

/-- **C4 (amended).** After `finished = true` a publish remains externally
observable: `publish` neither checks nor is gated by the flag, the
cumulative snapshot is still enqueued, and under a drained queue the next
`getLatestChunk` returns exactly that snapshot. -/
theorem publish_after_finished_observable (s : StreamS) (c : Chunk)
    (hfin : s.finished = true) (hq : s.queue = []) :
    (getLatestChunkStep (publishStep s c)).1 = some (fullChunkOf s.lastChunk c) := by
  unfold publishStep getLatestChunkStep
  rw [hq]
  simp only [List.nil_append]
  dsimp only [drainLoop]
  by_cases hf : (fullChunkOf s.lastChunk c).isFinal = true
  · rw [if_pos hf]
    congr 1
    cases hfc : fullChunkOf s.lastChunk c with
    | mk content payload msgItems isFinal =>
      rw [hfc] at hf
      simp only at hf
      simp [hf]
  · rw [if_neg hf]

/-- Witness for C4 at a concrete finished session. -/
theorem publish_after_finished_observable_witness :
    (getLatestChunkStep (publishStep
        { streamID := "sid", msgID := "", chatID := "", userID := "", responseURL := "",
          finished := true, queue := [],
          lastChunk := some { content := "a", payload := none, msgItems := [], isFinal := true } }
        { content := "b", payload := none, msgItems := [], isFinal := false })).1
      = some (fullChunkOf
          (some { content := "a", payload := none, msgItems := [], isFinal := true })
          { content := "b", payload := none, msgItems := [], isFinal := false }) :=
  publish_after_finished_observable
    { streamID := "sid", msgID := "", chatID := "", userID := "", responseURL := "",
      finished := true, queue := [],
      lastChunk := some { content := "a", payload := none, msgItems := [], isFinal := true } }
    { content := "b", payload := none, msgItems := [], isFinal := false }
    (by decide) (by decide)

/-- **C6.** Reply-shape selection of `refresh`: an empty incoming stream id
yields the terminator `{id:"", finish:true, content:""}`; a null chunk
yields the keep-alive `{id, finish:false, content:""}`; a chunk with
non-null payload is encrypted directly in place of a stream reply; a final
chunk with non-empty `msgItems` yields a stream reply with `msg_item`
attached; any other chunk yields a bare stream reply with the cumulative
content; and `markFinished` is called exactly when the chunk is final. -/
theorem refresh_reply_selection (streamID : String) (c : Chunk) :
    (refreshSelect "" (some c) = (.stream (BuildStreamReply "" "" true), false)) ∧
    (refreshSelect "" none = (.stream (BuildStreamReply "" "" true), false)) ∧
    (streamID ≠ "" →
      refreshSelect streamID none = (.stream (BuildStreamReply streamID "" false), false)) ∧
    (streamID ≠ "" → ∀ p, c.payload = some p →
      refreshSelect streamID (some c) = (.direct p, c.isFinal)) ∧
    (streamID ≠ "" → c.payload = none → c.isFinal = true → c.msgItems ≠ [] →
      refreshSelect streamID (some c)
        = (.stream (BuildStreamReplyWithMsgItems streamID c.content true c.msgItems),
            c.isFinal)) ∧
    (streamID ≠ "" → c.payload = none → ¬(c.isFinal = true ∧ c.msgItems ≠ []) →
      refreshSelect streamID (some c)
        = (.stream (BuildStreamReply streamID c.content c.isFinal), c.isFinal)) := by
  refine ⟨?_, ?_, ?_, ?_, ?_, ?_⟩
  · unfold refreshSelect
    rw [if_pos rfl]
  · unfold refreshSelect
    rw [if_pos rfl]
  · intro hne
    unfold refreshSelect
    rw [if_neg hne]
  · intro hne p hp
    unfold refreshSelect
    rw [if_neg hne]
    dsimp only
    rw [hp]
  · intro hne hp hfin hitems
    unfold refreshSelect
    rw [if_neg hne]
    dsimp only
    rw [hp]
    dsimp only
    rw [if_pos ⟨hfin, hitems⟩, hfin]
  · intro hne hp hnot
    unfold refreshSelect
    rw [if_neg hne]
    dsimp only
    rw [hp]
    dsimp only
    rw [if_neg hnot]

/-- Witness for C6: a null chunk on a live stream id produces the
keep-alive reply. -/
theorem refresh_reply_selection_witness :
    refreshSelect "sid" none = (.stream (BuildStreamReply "sid" "" false), false) :=
  (refresh_reply_selection "sid"
    { content := "", payload := none, msgItems := [], isFinal := false }).2.2.1 (by decide)

/-- **C7 (counterexample).** The claim says the items slice is deep-copied,
so mutation through nested pointers does not affect the published reply.
With one image item whose `Image` pointer refers to cell 0, building the
reply and then overwriting that cell (`items[0].Image.Base64 = …`) changes
the item values the published reply resolves to: the copy is shallow. -/
theorem buildStreamReplyWithMsgItems_nested_mutation_visible :
    (viewReplyItems
        (setImage
          (buildStreamReplyWithMsgItemsH
            { arrays := [[{ msgType := "image", text := none, image := some 0 }]],
              texts := [], images := [{ url := "", base64 := "BASE64", md5 := "MD5" }] }
            "sid" "content" true 0).1
          0 { url := "", base64 := "CHANGED", md5 := "MD5" })
        (buildStreamReplyWithMsgItemsH
          { arrays := [[{ msgType := "image", text := none, image := some 0 }]],
            texts := [], images := [{ url := "", base64 := "BASE64", md5 := "MD5" }] }
          "sid" "content" true 0).2)
      ≠ (viewReplyItems
        (buildStreamReplyWithMsgItemsH
          { arrays := [[{ msgType := "image", text := none, image := some 0 }]],
            texts := [], images := [{ url := "", base64 := "BASE64", md5 := "MD5" }] }
          "sid" "content" true 0).1
        (buildStreamReplyWithMsgItemsH
          { arrays := [[{ msgType := "image", text := none, image := some 0 }]],
            texts := [], images := [{ url := "", base64 := "BASE64", md5 := "MD5" }] }
          "sid" "content" true 0).2) := by
  decide

/-- Helper for C7: dereferencing an item only reads the text and image
heaps, not the slice arrays. -/
theorem viewItem_texts_images (w1 w2 : World) (ht : w1.texts = w2.texts)
    (hi : w1.images = w2.images) : viewItem w1 = viewItem w2 := by
  funext it
  unfold viewItem
  rw [ht, hi]

/-- **C7 (amended).** `buildStreamReplyWithMsgItems` attaches the items
only when `finish` is true and the slice is non-empty (so the serialized
reply has no `msg_item` key when `finish = false`), and it copies the
slice **shallowly**: a fresh backing array is allocated, so later element
writes to the caller's slice do not affect the published reply, while the
`Text`/`Image` pointers inside the copied elements remain shared.  The
value-level builder shows the `msg_item` JSON-key gating. -/
theorem buildStreamReplyWithMsgItems_gating_shallow_copy (w : World)
    (streamID content : String) (itemsRef : Nat) (href : itemsRef < w.arrays.length) :
    (∀ finish, ¬(finish = true ∧ w.arrays.getD itemsRef [] ≠ []) →
      buildStreamReplyWithMsgItemsH w streamID content finish itemsRef
        = (w, { id := streamID, finish := finish, content := content, msgItem := none })) ∧
    (w.arrays.getD itemsRef [] ≠ [] →
      (buildStreamReplyWithMsgItemsH w streamID content true itemsRef).2.msgItem
          = some w.arrays.length ∧
      (buildStreamReplyWithMsgItemsH w streamID content true itemsRef).1.arrays.getD
          w.arrays.length [] = w.arrays.getD itemsRef [] ∧
      viewReplyItems (buildStreamReplyWithMsgItemsH w streamID content true itemsRef).1
          (buildStreamReplyWithMsgItemsH w streamID content true itemsRef).2
        = (w.arrays.getD itemsRef []).map (viewItem w) ∧
      (∀ i v, viewReplyItems
          (setElem (buildStreamReplyWithMsgItemsH w streamID content true itemsRef).1
            itemsRef i v)
          (buildStreamReplyWithMsgItemsH w streamID content true itemsRef).2
        = viewReplyItems (buildStreamReplyWithMsgItemsH w streamID content true itemsRef).1
            (buildStreamReplyWithMsgItemsH w streamID content true itemsRef).2)) ∧
    (∀ itemsV : List MixedItemV,
      ¬("msg_item" ∈
        streamBodyJsonKeys (BuildStreamReplyWithMsgItems streamID content false itemsV).stream)) ∧
    (∀ itemsV : List MixedItemV, itemsV ≠ [] →
      "msg_item" ∈
        streamBodyJsonKeys (BuildStreamReplyWithMsgItems streamID content true itemsV).stream) := by
  refine ⟨?_, ?_, ?_, ?_⟩
  · intro finish hnot
    unfold buildStreamReplyWithMsgItemsH
    rw [if_neg (by simpa using hnot)]
  · intro hne
    have hbuild : buildStreamReplyWithMsgItemsH w streamID content true itemsRef
        = ({ w with arrays := w.arrays ++ [w.arrays.getD itemsRef []] },
           { id := streamID, finish := true, content := content,
             msgItem := some w.arrays.length }) := by
      unfold buildStreamReplyWithMsgItemsH
      rw [if_pos ⟨rfl, hne⟩]
    rw [hbuild]
    have hgetNew : (w.arrays ++ [w.arrays.getD itemsRef []]).getD w.arrays.length []
        = w.arrays.getD itemsRef [] := by
      rw [List.getD_eq_getElem?_getD, List.getElem?_append_right (le_refl _)]
      simp
    refine ⟨rfl, hgetNew, ?_, ?_⟩
    · unfold viewReplyItems
      dsimp only
      rw [hgetNew]
      apply List.map_congr_left
      intro it hit
      unfold viewItem
      rfl
    · intro i v
      unfold viewReplyItems setElem
      dsimp only
      have hset : ((w.arrays ++ [w.arrays.getD itemsRef []]).set itemsRef
            (((w.arrays ++ [w.arrays.getD itemsRef []]).getD itemsRef []).set i v)).getD
            w.arrays.length []
          = (w.arrays ++ [w.arrays.getD itemsRef []]).getD w.arrays.length [] := by
        simp only [List.getD_eq_getElem?_getD]
        rw [List.getElem?_set_ne (by omega)]
      rw [hset]
      congr 1
  · intro itemsV
    unfold BuildStreamReplyWithMsgItems
    rw [if_neg (by simp)]
    unfold BuildStreamReply streamBodyJsonKeys
    simp
  · intro itemsV hne
    unfold BuildStreamReplyWithMsgItems
    rw [if_pos ⟨rfl, hne⟩]
    unfold BuildStreamReply streamBodyJsonKeys
    simp [hne]

/-- Witness for C7 at a concrete world: one image item, built with
`finish = true`; the reply owns the fresh array at index 1, and an element
write to the caller's array leaves the reply view unchanged. -/
theorem buildStreamReplyWithMsgItems_gating_shallow_copy_witness :
    (buildStreamReplyWithMsgItemsH
        { arrays := [[{ msgType := "image", text := none, image := some 0 }]],
          texts := [], images := [{ url := "", base64 := "BASE64", md5 := "MD5" }] }
        "sid" "content" true 0).2.msgItem = some 1 :=
  ((buildStreamReplyWithMsgItems_gating_shallow_copy
      { arrays := [[{ msgType := "image", text := none, image := some 0 }]],
        texts := [], images := [{ url := "", base64 := "BASE64", md5 := "MD5" }] }
      "sid" "content" 0 (by decide)).2.1 (by decide)).1

/-- **C10.** `createOrGet` on a message with empty `msgId` always creates a
brand-new session: it returns `isNew = true`, the session carries the
freshly generated stream id, and the `msgId -> streamId` index is left
unchanged; hence two successive empty-`msgId` messages, with the two fresh
ids drawn by `generateStreamID` distinct, receive two distinct sessions and
are never deduplicated. -/
theorem createOrGet_empty_msgid (m : ManagerS) (msg : MessageM) (hmsg : msg.msgID = "")
    (fid1 fid2 : String) (hne : fid1 ≠ fid2) :
    ((createOrGet m msg fid1).1.2 = true ∧
      (createOrGet m msg fid1).1.1.streamID = fid1 ∧
      (createOrGet m msg fid1).2.msgIndex = m.msgIndex) ∧
    ((createOrGet (createOrGet m msg fid1).2 msg fid2).1.2 = true ∧
      (createOrGet (createOrGet m msg fid1).2 msg fid2).1.1.streamID = fid2 ∧
      (createOrGet (createOrGet m msg fid1).2 msg fid2).1.1.streamID
        ≠ (createOrGet m msg fid1).1.1.streamID) := by
  have hstep : ∀ (m2 : ManagerS) (fid : String),
      createOrGet m2 msg fid
        = (({ streamID := fid, msgID := msg.msgID, chatID := msg.chatID,
              userID := msg.userID, responseURL := msg.responseURL,
              finished := false, queue := [], lastChunk := none }, true),
           { m2 with
             streams := (fid,
               { streamID := fid, msgID := msg.msgID, chatID := msg.chatID,
                 userID := msg.userID, responseURL := msg.responseURL,
                 finished := false, queue := [], lastChunk := none }) :: m2.streams,
             msgIndex := m2.msgIndex }) := by
    intro m2 fid
    unfold createOrGet
    rw [hmsg]
    dsimp only
    rw [if_neg (by simp), if_neg (by simp)]
  rw [hstep m fid1, hstep _ fid2]
  exact ⟨⟨rfl, rfl, rfl⟩, ⟨rfl, rfl, Ne.symm hne⟩⟩

/-- Witness for C10 at a concrete manager and two distinct fresh ids. -/
theorem createOrGet_empty_msgid_witness :
    (createOrGet { streams := [], msgIndex := [] }
      { msgID := "", chatID := "chat", userID := "user", responseURL := "" } "id1").1.2
      = true :=
  ((createOrGet_empty_msgid { streams := [], msgIndex := [] }
      { msgID := "", chatID := "chat", userID := "user", responseURL := "" } (by decide)
      "id1" "id2" (by decide)).1).1

end Wecom
